import Mathlib

/-!
Shallow embedding of the `selfosc` digital-waveguide library
(`selfosc/delay_lines.py` and `selfosc/simple_delay_tubes.py`).

Scalars are modelled as rationals (`ℚ`); numpy arrays as `List ℚ`;
Python integer indices as `ℤ` with Python's `%` translated to `Int.emod`
(both give a result in `[0, n)` for a positive modulus).
-/

/-- `DelayLine` from `delay_lines.py`: a fixed-capacity circular buffer.
`line` is the backing store, `ptr` the index of the most recently written
sample, `n_samp` the capacity, `delay` the configured default read offset,
`nticks` the number of samples inserted so far. -/
structure DelayLine where
  line : List ℚ
  ptr : ℕ
  n_samp : ℕ
  delay : ℕ
  nticks : ℕ
deriving DecidableEq

/-- `DelayLine.__init__`: capacity `delay + extra`, all zeros, pointer at 0. -/
def DelayLine.init (delay : ℕ) (extra : ℕ := 1) : DelayLine :=
  { line := List.replicate (delay + extra) 0
    ptr := 0
    n_samp := delay + extra
    delay := delay
    nticks := 0 }

/-- `DelayLine.increase_ptr`: advance the pointer by one, wrapping at
`len(line) - 1`, and count the tick. -/
def DelayLine.increase_ptr (d : DelayLine) : DelayLine :=
  let p := d.ptr + 1
  let p := if p > d.line.length - 1 then 0 else p
  { d with ptr := p, nticks := d.nticks + 1 }

/-- `DelayLine.insert_sample`: advance the pointer, then write the sample at
the new pointer position. -/
def DelayLine.insert_sample (d : DelayLine) (sin : ℚ) : DelayLine :=
  let d := d.increase_ptr
  { d with line := d.line.set d.ptr sin }

/-- `DelayLine.read_delay`: read `line[(ptr - delay) % n_samp]`.  Python's
`%` on ints is `Int.emod`; the resulting index is always in range for a
positive `n_samp`, so no bounds error can occur. -/
def DelayLine.read_delay (d : DelayLine) (delay : ℤ) : ℚ :=
  d.line.getD (((d.ptr : ℤ) - delay) % (d.n_samp : ℤ)).toNat 0

/-- `np.roll` for 1-d arrays: `roll(l, k)[i] = l[(i - k) % len(l)]`. -/
def np_roll (l : List ℚ) (k : ℤ) : List ℚ :=
  (List.range l.length).map
    (fun (i : ℕ) => l.getD ((((i : ℕ) : ℤ) - k) % (l.length : ℤ)).toNat 0)

/-- `DelayLine.dump_line`: `np.roll(np.flipud(line), ptr+1)[:delay]`. -/
def DelayLine.dump_line (d : DelayLine) : List ℚ :=
  (np_roll d.line.reverse ((d.ptr : ℤ) + 1)).take d.delay

/-- Feeding a whole list of samples into a delay line, one
`insert_sample` per element. -/
def DelayLine.run (d : DelayLine) (ss : List ℚ) : DelayLine :=
  ss.foldl DelayLine.insert_sample d

/-- Structural well-formedness of a delay line built by
`DelayLine.init dl ex` and evolved only by `insert_sample`. -/
def DelayLine.WF (d : DelayLine) (dl ex : ℕ) : Prop :=
  d.line.length = dl + ex ∧ d.n_samp = dl + ex ∧ d.delay = dl ∧ d.ptr < dl + ex

/-- 2×2 scattering matrix, a concrete stand-in for the 2×2 numpy arrays of
`simple_delay_tubes.py`; `mij` is entry `[i, j]`. -/
structure Mat2 where
  m00 : ℚ
  m01 : ℚ
  m10 : ℚ
  m11 : ℚ
deriving DecidableEq

/-- The default junction appended by `append_tube`: the perfect open-pipe
reflection matrix `[[0, 1], [-1, 0]]`. -/
def openEnd : Mat2 := ⟨0, 1, -1, 0⟩

/-- `Tube` from `simple_delay_tubes.py`: a pair of delay lines (incoming and
outgoing waves) with per-sample attenuation `smpl_prop_mult = 1 - losses`
and full-traversal attenuation `prop_mult = (1 - losses) ^ delay`. -/
structure Tube where
  dlin : DelayLine
  dlout : DelayLine
  delay : ℕ
  prop_mult : ℚ
  smpl_prop_mult : ℚ
deriving DecidableEq

/-- `Tube.__init__`: two delay lines of capacity `delay + 5` (`extra = 5`). -/
def Tube.init (delay : ℕ) (losses : ℚ) : Tube :=
  { dlin := DelayLine.init delay 5
    dlout := DelayLine.init delay 5
    delay := delay
    prop_mult := (1 - losses) ^ delay
    smpl_prop_mult := 1 - losses }

instance : Inhabited Tube := ⟨Tube.init 1 0⟩

def Tube.insert_incoming_sample (t : Tube) (sin : ℚ) : Tube :=
  { t with dlin := t.dlin.insert_sample sin }

def Tube.insert_outgoing_sample (t : Tube) (sin : ℚ) : Tube :=
  { t with dlout := t.dlout.insert_sample sin }

/-- `Tube.read_outgoing`: read the outgoing line at offset
`dlout.delay - 2` (the source's "weird correction") and attenuate by the
full-traversal multiplier. -/
def Tube.read_outgoing (t : Tube) : ℚ :=
  t.dlout.read_delay ((t.dlout.delay : ℤ) - 2) * t.prop_mult

/-- `Tube.read_incoming`: same as `read_outgoing` for the incoming line. -/
def Tube.read_incoming (t : Tube) : ℚ :=
  t.dlin.read_delay ((t.dlin.delay : ℤ) - 2) * t.prop_mult

/-- `Tube.read_incoming_at_pos`: incoming line at raw offset
`delay - index` scaled by `smpl_prop_mult ^ (delay - index)`. -/
def Tube.read_incoming_at_pos (t : Tube) (index : ℤ) : ℚ :=
  t.dlin.read_delay ((t.delay : ℤ) - index)
    * t.smpl_prop_mult ^ ((t.delay : ℤ) - index)

/-- `Tube.read_outgoing_at_pos`: outgoing line at raw offset `index`
scaled by `smpl_prop_mult ^ index`. -/
def Tube.read_outgoing_at_pos (t : Tube) (index : ℤ) : ℚ :=
  t.dlout.read_delay index * t.smpl_prop_mult ^ index

/-- `Tube.get_sum_at_pos`: pressure = incoming + outgoing at a position. -/
def Tube.get_sum_at_pos (t : Tube) (index : ℤ) : ℚ :=
  t.read_incoming_at_pos index + t.read_outgoing_at_pos index

/-- Elementwise numpy multiplication of 1-d arrays, including numpy's
broadcasting rule: equal lengths are zipped, a length-1 operand is
stretched, and any other length mismatch raises `ValueError` (`none`). -/
def np_mul (a b : List ℚ) : Option (List ℚ) :=
  if a.length = b.length then some (List.zipWith (fun x y => x * y) a b)
  else if a.length = 1 then some (b.map (fun y => a.getD 0 0 * y))
  else if b.length = 1 then some (a.map (fun x => x * b.getD 0 0))
  else none

/-- Elementwise numpy addition of 1-d arrays, same broadcasting rule. -/
def np_add (a b : List ℚ) : Option (List ℚ) :=
  if a.length = b.length then some (List.zipWith (fun x y => x + y) a b)
  else if a.length = 1 then some (b.map (fun y => a.getD 0 0 + y))
  else if b.length = 1 then some (a.map (fun x => x + b.getD 0 0))
  else none

/-- `Tube.get_sum_distribution`:
`pmults = smpl_prop_mult ** arange(delay+1)`,
`pout = dump_line(out) * pmults`, `pin = flipud(dump_line(in) * pmults)`,
result `pout + pin`.  Each numpy operation that can raise is `Option`al. -/
def Tube.get_sum_distribution (t : Tube) : Option (List ℚ) := do
  let pmults := (List.range (t.delay + 1)).map
    (fun (i : ℕ) => t.smpl_prop_mult ^ i)
  let pout ← np_mul t.dlout.dump_line pmults
  let pin0 ← np_mul t.dlin.dump_line pmults
  np_add pout pin0.reverse

/-- `TubeAssembly` from `simple_delay_tubes.py`: parallel lists of tubes,
scattering matrices and radii. -/
structure TubeAssembly where
  tubes : List Tube
  scats : List Mat2
  radii : List ℚ
deriving DecidableEq

/-- `TubeAssembly.__init__`: empty lists. -/
def TubeAssembly.init : TubeAssembly := ⟨[], [], []⟩

/-- The junction matrix formula of `connect_tubes`:
`scr = 1/r_right²`, `scl = 1/r_left²`,
`[[2·scr, scl - scr], [scr - scl, 2·scl]] / (scr + scl)`. -/
def junctionMat (r_left r_right : ℚ) : Mat2 :=
  let scr := 1 / r_right ^ 2
  let scl := 1 / r_left ^ 2
  ⟨2 * scr / (scr + scl), (scl - scr) / (scr + scl),
   (scr - scl) / (scr + scl), 2 * scl / (scr + scl)⟩

/-- `TubeAssembly.connect_tubes`: normalise a negative index Python-style,
do nothing for index 0, otherwise store the junction computed from radii
`index-1` and `index` into slot `index-1`. -/
def TubeAssembly.connect_tubes (ta : TubeAssembly) (index : ℤ := -1) :
    TubeAssembly :=
  let index := if index < 0 then (ta.tubes.length : ℤ) + index else index
  if index = 0 then ta
  else
    let i := index.toNat
    let newscat := junctionMat (ta.radii.getD (i - 1) 0) (ta.radii.getD i 0)
    { ta with scats := ta.scats.set (i - 1) newscat }

/-- `TubeAssembly.append_tube`: append a tube, a default open-end junction
and the radius, then recompute the junction at the new boundary. -/
def TubeAssembly.append_tube (ta : TubeAssembly) (delay : ℕ := 1)
    (radius : ℚ := 1) (losses : ℚ := 0) : TubeAssembly :=
  TubeAssembly.connect_tubes
    { ta with
      tubes := ta.tubes ++ [Tube.init delay losses]
      scats := ta.scats ++ [openEnd]
      radii := ta.radii ++ [radius] }

/-- `TubeAssembly.scatter`: push an outgoing-from-left and an
incoming-from-right value through junction `index`. -/
def TubeAssembly.scatter (ta : TubeAssembly) (index : ℕ)
    (outgoing_val incoming_val : ℚ) : ℚ × ℚ :=
  let scat := ta.scats.getD index openEnd
  let plout_refl := outgoing_val * scat.m10
  let plout_trans := outgoing_val * scat.m00
  let prin_trans := incoming_val * scat.m11
  let prin_refl := incoming_val * scat.m01
  (prin_refl + plout_trans, prin_trans + plout_refl)

/-- `TubeAssembly.insert_values`: the per-tick update.  Returns the updated
assembly together with the scalar `prout` radiated at the terminal end. -/
def TubeAssembly.insert_values (ta : TubeAssembly) (val : ℚ)
    (ret_val : ℚ := 0) : TubeAssembly × ℚ :=
  let step := fun (acc : List Tube × ℚ) (ii : ℕ) =>
    let tubes := acc.1
    let prev_prout := acc.2
    let plout := (tubes.getD ii default).read_outgoing
    let prin := (tubes.getD (ii + 1) default).read_incoming
    let pr := ta.scatter ii plout prin
    let t := tubes.getD ii default
    let t := { t with dlin := t.dlin.insert_sample pr.2,
                      dlout := t.dlout.insert_sample prev_prout }
    (tubes.set ii t, pr.1)
  let acc := (List.range (ta.tubes.length - 1)).foldl step (ta.tubes, val)
  let tubes := acc.1
  let prev_prout := acc.2
  let lastIdx := ta.tubes.length - 1
  let plout := (tubes.getD lastIdx default).read_outgoing
  let pr := ta.scatter (ta.scats.length - 1) plout ret_val
  let t := tubes.getD lastIdx default
  let t := { t with dlin := t.dlin.insert_sample pr.2,
                    dlout := t.dlout.insert_sample prev_prout }
  ({ ta with tubes := tubes.set lastIdx t }, pr.1)

/-- `TubeAssembly.get_incoming_pressure_at_start`: incoming pressure at
position 0 of the first tube. -/
def TubeAssembly.get_incoming_pressure_at_start (ta : TubeAssembly) : ℚ :=
  (ta.tubes.getD 0 default).read_incoming_at_pos 0

/-- The accumulator loop of `get_tube_at_pos`: `pos` is the cumulative delay
of the tubes already passed; the first tube whose cumulative end reaches
`index` is returned with the local position `index - prev_pos`. -/
def tubeAtPosAux : List Tube → ℤ → ℤ → Option (Tube × ℤ)
  | [], _, _ => none
  | t :: rest, pos, index =>
    if pos + (t.delay : ℤ) ≥ index then some (t, index - pos)
    else tubeAtPosAux rest (pos + (t.delay : ℤ)) index

/-- `TubeAssembly.get_tube_at_pos`; falling off the loop in Python returns
`None`, modelled as `none`. -/
def TubeAssembly.get_tube_at_pos (ta : TubeAssembly) (index : ℤ) :
    Option (Tube × ℤ) :=
  tubeAtPosAux ta.tubes 0 index

/-- `TubeAssembly.get_sum_at_pos`: unpacking `None` in Python raises a
`TypeError`, modelled as `none`. -/
def TubeAssembly.get_sum_at_pos (ta : TubeAssembly) (index : ℤ) : Option ℚ :=
  (ta.get_tube_at_pos index).map (fun p => p.1.get_sum_at_pos p.2)

/-- Run the per-tick update over a list of input values
(`ret_val = 0` each tick), keeping the final state. -/
def TubeAssembly.run (ta : TubeAssembly) (vals : List ℚ) : TubeAssembly :=
  vals.foldl (fun s v => (s.insert_values v 0).1) ta

/-- Run the per-tick update over a list of input values, collecting the
scalar returned by `insert_values` at every tick. -/
def TubeAssembly.run_returns (ta : TubeAssembly) (vals : List ℚ) : List ℚ :=
  (vals.foldl (fun (acc : TubeAssembly × List ℚ) v =>
    let r := acc.1.insert_values v 0
    (r.1, acc.2 ++ [r.2])) (ta, ([] : List ℚ))).2

/-- Build an assembly by a sequence of `append_tube (delay, radius, losses)`
calls starting from the empty assembly. -/
def buildAssembly (specs : List (ℕ × ℚ × ℚ)) : TubeAssembly :=
  specs.foldl (fun ta p => ta.append_tube p.1 p.2.1 p.2.2) TubeAssembly.init

/-- A single-segment assembly with unit radius and zero losses. -/
def singleTube (d : ℕ) : TubeAssembly := TubeAssembly.init.append_tube d 1 0

/-- Cumulative delay of the first `k` tubes of a list. -/
def cumTubes (ts : List Tube) (k : ℕ) : ℤ :=
  ((ts.take k).map (fun t => (t.delay : ℤ))).sum

/-- Cumulative delay of the first `k` tubes. -/
def TubeAssembly.cumDelay (ta : TubeAssembly) (k : ℕ) : ℤ :=
  cumTubes ta.tubes k

/-- Total delay of the assembly. -/
def TubeAssembly.totalDelay (ta : TubeAssembly) : ℤ :=
  ta.cumDelay ta.tubes.length

/-- The samples fed into the incoming line of a single-tube assembly while
`vs` is fed into the outgoing line: at tick `j + 1` the update inserts minus
the attenuated outgoing exit read taken before that tick's inserts. -/
def inSeq (d : ℕ) (vs : List ℚ) : List ℚ :=
  (List.range vs.length).map (fun (j : ℕ) =>
    -(((DelayLine.init d 5).run (vs.take j)).read_delay
        ((((DelayLine.init d 5).run (vs.take j)).delay : ℤ) - 2)
      * (1 - (0 : ℚ)) ^ d))

theorem DelayLine.init_WF (dl ex : ℕ) (h : 0 < dl + ex) :
    (DelayLine.init dl ex).WF dl ex := by
  refine ⟨?_, rfl, rfl, h⟩
  simp [DelayLine.init]

theorem DelayLine.insert_WF {d : DelayLine} {dl ex : ℕ} (s : ℚ)
    (h : d.WF dl ex) : (d.insert_sample s).WF dl ex := by
  obtain ⟨hlen, hn, hd, hp⟩ := h
  refine ⟨?_, hn, hd, ?_⟩ <;>
    simp only [DelayLine.insert_sample, DelayLine.increase_ptr, hlen,
      List.length_set] <;> split <;> omega

theorem DelayLine.run_WF {d : DelayLine} {dl ex : ℕ} (ss : List ℚ)
    (h : d.WF dl ex) : (d.run ss).WF dl ex := by
  induction ss generalizing d with
  | nil => exact h
  | cons s ss ih => exact ih (DelayLine.insert_WF s h)

theorem List.getD_set_self {α : Type} (l : List α) (i : ℕ) (a d : α)
    (h : i < l.length) : (l.set i a).getD i d = a := by
  simp [List.getD, List.getElem?_set, h]

theorem List.getD_set_ne {α : Type} (l : List α) (i j : ℕ) (a d : α)
    (h : i ≠ j) : (l.set i a).getD j d = l.getD j d := by
  simp [List.getD, List.getElem?_set, h]

theorem emod_sub_left (a kk N : ℤ) : ((a % N) - kk) % N = (a - kk) % N := by
  conv_lhs => rw [Int.sub_emod]
  rw [Int.emod_emod_of_dvd _ dvd_rfl, ← Int.sub_emod]

/-- Reading the line just after an insert: offset 0 sees the new sample,
offset `k ≥ 1` sees what offset `k - 1` saw before the insert. -/
theorem DelayLine.read_insert (d : DelayLine) {dl ex : ℕ} (s : ℚ) (k : ℕ)
    (h : d.WF dl ex) (hk : k < dl + ex) :
    (d.insert_sample s).read_delay (k : ℤ)
      = if k = 0 then s else d.read_delay ((k : ℤ) - 1) := by
  obtain ⟨hlen, hn, hd, hp⟩ := h
  have hnpos : 0 < dl + ex := by omega
  have hptr1 : (if d.ptr + 1 > d.line.length - 1 then 0 else d.ptr + 1)
      = (d.ptr + 1) % (dl + ex) := by
    rw [hlen]
    by_cases hcase : d.ptr + 1 > dl + ex - 1
    · have heq : d.ptr + 1 = dl + ex := by omega
      simp [hcase, heq, Nat.mod_self]
    · have hlt : d.ptr + 1 < dl + ex := by omega
      simp [hcase, Nat.mod_eq_of_lt hlt]
  have hNne : ((dl + ex : ℕ) : ℤ) ≠ 0 := by positivity
  have hNpos : (0 : ℤ) < ((dl + ex : ℕ) : ℤ) := by positivity
  have hcast : (((d.ptr + 1) % (dl + ex) : ℕ) : ℤ)
      = ((d.ptr : ℤ) + 1) % ((dl + ex : ℕ) : ℤ) := by
    push_cast
    ring_nf
  simp only [DelayLine.insert_sample, DelayLine.increase_ptr,
    DelayLine.read_delay, hptr1, hn]
  by_cases hk0 : k = 0
  · subst hk0
    simp only [if_pos rfl, Nat.cast_zero, sub_zero, hcast]
    rw [Int.emod_emod_of_dvd _ dvd_rfl, ← hcast, Int.toNat_natCast]
    exact List.getD_set_self _ _ _ _
      (by rw [hlen]; exact Nat.mod_lt _ hnpos)
  · rw [if_neg hk0]
    have hk1 : 1 ≤ k := by omega
    have hidx : ((((d.ptr + 1) % (dl + ex) : ℕ) : ℤ) - (k : ℤ))
          % ((dl + ex : ℕ) : ℤ)
        = ((d.ptr : ℤ) - ((k : ℤ) - 1)) % ((dl + ex : ℕ) : ℤ) := by
      rw [hcast, emod_sub_left]
      ring_nf
    rw [hidx]
    have hne : (((d.ptr : ℤ) - ((k : ℤ) - 1)) % ((dl + ex : ℕ) : ℤ)).toNat
        ≠ (d.ptr + 1) % (dl + ex) := by
      intro hcontra
      have h0 : 0 ≤ ((d.ptr : ℤ) - ((k : ℤ) - 1)) % ((dl + ex : ℕ) : ℤ) :=
        Int.emod_nonneg _ hNne
      have heqZ : ((d.ptr : ℤ) - ((k : ℤ) - 1)) % ((dl + ex : ℕ) : ℤ)
          = ((d.ptr : ℤ) + 1) % ((dl + ex : ℕ) : ℤ) := by
        rw [← hcast, ← hcontra, Int.toNat_of_nonneg h0]
      have hsub : (((d.ptr : ℤ) - ((k : ℤ) - 1)) - ((d.ptr : ℤ) + 1))
          % ((dl + ex : ℕ) : ℤ) = 0 :=
        Int.emod_emod_of_dvd _ dvd_rfl ▸
          (Int.emod_eq_emod_iff_emod_sub_eq_zero.mp heqZ)
      have hdvd : ((dl + ex : ℕ) : ℤ) ∣ (k : ℤ) := by
        have : ((d.ptr : ℤ) - ((k : ℤ) - 1)) - ((d.ptr : ℤ) + 1) = -(k : ℤ) := by
          ring
        rw [this] at hsub
        exact (Int.dvd_neg).mp (Int.dvd_of_emod_eq_zero hsub)
      have hle : ((dl + ex : ℕ) : ℤ) ≤ (k : ℤ) :=
        Int.le_of_dvd (by exact_mod_cast hk1) hdvd
      omega
    exact List.getD_set_ne _ _ _ _ _ (fun he => hne he.symm)

/-- Reading a delay line built from `init` by inserting the samples of `ss`:
offset `k < capacity` sees the sample inserted `k` ticks ago, or the
initialisation zero when fewer than `k + 1` samples were ever inserted. -/
theorem DelayLine.read_run (dl ex : ℕ) (ss : List ℚ) :
    ∀ k : ℕ, k < dl + ex →
    ((DelayLine.init dl ex).run ss).read_delay (k : ℤ)
      = if k < ss.length then ss.getD (ss.length - 1 - k) 0 else 0 := by
  induction ss using List.reverseRecOn with
  | nil =>
    intro k hk
    simp only [DelayLine.run, List.foldl_nil, List.length_nil]
    rw [if_neg (by omega)]
    simp [DelayLine.read_delay, DelayLine.init]
  | append_singleton ss v ih =>
    intro k hk
    have hnpos : 0 < dl + ex := by omega
    have hstep : (DelayLine.init dl ex).run (ss ++ [v])
        = ((DelayLine.init dl ex).run ss).insert_sample v := by
      simp [DelayLine.run]
    rw [hstep, DelayLine.read_insert _ v k
      (DelayLine.run_WF ss (DelayLine.init_WF dl ex hnpos)) hk]
    by_cases hk0 : k = 0
    · subst hk0
      rw [if_pos rfl, if_pos (by simp)]
      simp [List.getD]
    · rw [if_neg hk0]
      have hk1 : 1 ≤ k := by omega
      have hcast : ((k : ℤ) - 1) = ((k - 1 : ℕ) : ℤ) := by push_cast; omega
      rw [hcast, ih (k - 1) (by omega)]
      by_cases hlt : k - 1 < ss.length
      · rw [if_pos hlt, if_pos (by simp; omega)]
        have hlen2 : (ss ++ [v]).length - 1 - k < ss.length := by
          simp; omega
        rw [List.getD_append _ _ _ _ hlen2]
        congr 1
        simp
        omega
      · rw [if_neg hlt, if_neg (by simp; omega)]

theorem List.getD_take (l : List ℚ) (n m : ℕ) (h : m < n) :
    (l.take n).getD m 0 = l.getD m 0 := by
  simp [List.getD, List.getElem?_take, h]

theorem List.getD_map_range (f : ℕ → ℚ) (n k : ℕ) (h : k < n) :
    ((List.range n).map f).getD k 0 = f k := by
  simp [List.getD, List.getElem?_map, List.getElem?_range, h]

theorem List.getD_reverse (l : List ℚ) (m : ℕ) (h : m < l.length) :
    l.reverse.getD m 0 = l.getD (l.length - 1 - m) 0 := by
  have h2 : l.length - 1 - m < l.length := by omega
  simp [List.getD, List.getElem?_reverse, h, List.getElem?_eq_getElem, h2]

theorem emod_sub_right (a x N : ℤ) : (a - (x % N)) % N = (a - x) % N := by
  conv_lhs => rw [Int.sub_emod]
  rw [Int.emod_emod_of_dvd _ dvd_rfl, ← Int.sub_emod]

/-- The `k`-th entry of `dump_line` is exactly `read_delay k`, for every
offset `k < delay`, in any structurally well-formed state. -/
theorem DelayLine.dump_getD (d : DelayLine) (k : ℕ)
    (hlen : d.line.length = d.n_samp) (hdel : d.delay ≤ d.n_samp)
    (hk : k < d.delay) :
    d.dump_line.getD k 0 = d.read_delay (k : ℤ) := by
  have hn : 0 < d.n_samp := by omega
  have hNne : ((d.n_samp : ℕ) : ℤ) ≠ 0 := by positivity
  have hNpos : (0 : ℤ) < ((d.n_samp : ℕ) : ℤ) := by positivity
  rw [DelayLine.dump_line, np_roll, List.getD_take _ _ _ hk,
    List.getD_map_range _ _ _ (by simp [hlen]; omega)]
  simp only [List.length_reverse, hlen]
  set A : ℤ := ((k : ℤ) - ((d.ptr : ℤ) + 1)) % (d.n_samp : ℤ) with hA
  have hA0 : 0 ≤ A := Int.emod_nonneg _ hNne
  have hAlt : A < (d.n_samp : ℤ) := Int.emod_lt_of_pos _ hNpos
  rw [List.getD_reverse _ _ (by rw [hlen]; omega)]
  rw [DelayLine.read_delay, hlen]
  congr 1
  -- line.length - 1 - A.toNat = ((ptr - k) % n).toNat
  have hmod : ((d.ptr : ℤ) - (k : ℤ)) % (d.n_samp : ℤ)
      = (d.n_samp : ℤ) - 1 - A := by
    have h1 : (d.ptr : ℤ) - (k : ℤ) = (-1 : ℤ) - ((k : ℤ) - ((d.ptr : ℤ) + 1)) := by
      ring
    rw [h1, ← emod_sub_right ((-1 : ℤ)) ((k : ℤ) - ((d.ptr : ℤ) + 1)) _, ← hA]
    have h2 : (-1 : ℤ) - A = ((d.n_samp : ℤ) - 1 - A) + (d.n_samp : ℤ) * (-1) := by
      ring
    rw [h2, Int.add_mul_emod_self_left]
    exact Int.emod_eq_of_lt (by omega) (by omega)
  rw [hmod]
  omega

theorem TubeAssembly.connect_tubes_tubes (ta : TubeAssembly) (i : ℤ) :
    (ta.connect_tubes i).tubes = ta.tubes := by
  simp only [TubeAssembly.connect_tubes]
  split <;> split <;> rfl

theorem TubeAssembly.connect_tubes_radii (ta : TubeAssembly) (i : ℤ) :
    (ta.connect_tubes i).radii = ta.radii := by
  simp only [TubeAssembly.connect_tubes]
  split <;> split <;> rfl

theorem TubeAssembly.append_tube_tubes (ta : TubeAssembly) (d : ℕ) (r l : ℚ) :
    (ta.append_tube d r l).tubes = ta.tubes ++ [Tube.init d l] :=
  TubeAssembly.connect_tubes_tubes _ _

theorem TubeAssembly.append_tube_radii (ta : TubeAssembly) (d : ℕ) (r l : ℚ) :
    (ta.append_tube d r l).radii = ta.radii ++ [r] :=
  TubeAssembly.connect_tubes_radii _ _

/-- C5: for a delay line of capacity `n = delay + extra`, after inserting any
sequence of samples, `read_delay k` for `0 ≤ k < n` returns the sample
inserted `k` ticks earlier, or the initialisation zero when fewer than
`k + 1` samples have ever been inserted, for all tick counts. -/
theorem C5_delay_correctness (dl ex : ℕ) (ss : List ℚ) (k : ℕ)
    (hk : k < dl + ex) :
    ((DelayLine.init dl ex).run ss).read_delay (k : ℤ)
      = if k < ss.length then ss.getD (ss.length - 1 - k) 0 else 0 :=
  DelayLine.read_run dl ex ss k hk

theorem C5_delay_correctness_witness :
    2 < 3 + 1
    ∧ ((DelayLine.init 3 1).run [5, 7, 11]).read_delay ((2 : ℕ) : ℤ) = 5 := by
  refine ⟨by norm_num, ?_⟩
  have h := C5_delay_correctness 3 1 [5, 7, 11] 2 (by norm_num)
  simpa using h

/-- C6: in every reachable state of a delay line (initialisation followed by
any sequence of inserts), `dump_line[k] = read_delay k` for all
`0 ≤ k < delay`: the dump is a non-destructive snapshot ordered from the
most recent sample (offset 0) to offset `delay - 1`. -/
theorem C6_dump_consistency (dl ex : ℕ) (ss : List ℚ) (k : ℕ) (hk : k < dl) :
    ((DelayLine.init dl ex).run ss).dump_line.getD k 0
      = ((DelayLine.init dl ex).run ss).read_delay (k : ℤ) := by
  obtain ⟨hlen, hn, hd, _⟩ :=
    DelayLine.run_WF ss (DelayLine.init_WF dl ex (by omega))
  exact DelayLine.dump_getD _ k (by rw [hlen, hn]) (by rw [hd, hn]; omega)
    (by rw [hd]; omega)

theorem C6_dump_consistency_witness :
    1 < 3
    ∧ ((DelayLine.init 3 1).run [5, 7, 11]).dump_line.getD 1 0
        = ((DelayLine.init 3 1).run [5, 7, 11]).read_delay ((1 : ℕ) : ℤ)
    ∧ ((DelayLine.init 3 1).run [5, 7, 11]).read_delay ((1 : ℕ) : ℤ) = 7 := by
  refine ⟨by norm_num, C6_dump_consistency 3 1 [5, 7, 11] 1 (by norm_num),
    by decide⟩

/-- C7: for any two positive radii, the junction matrix of `connect_tubes`
has an antisymmetric coupling term, `M[0,1] + M[1,0] = 0`, and its diagonal
entries satisfy the impedance-scaled reciprocity relation
`M[0,0] · r_right² = M[1,1] · r_left²`. -/
theorem C7_scattering_conservation (r_left r_right : ℚ)
    (hl : 0 < r_left) (hr : 0 < r_right) :
    (junctionMat r_left r_right).m01 + (junctionMat r_left r_right).m10 = 0
    ∧ (junctionMat r_left r_right).m00 * r_right ^ 2
        = (junctionMat r_left r_right).m11 * r_left ^ 2 := by
  have hl' : r_left ≠ 0 := ne_of_gt hl
  have hr' : r_right ≠ 0 := ne_of_gt hr
  have hs : 1 / r_right ^ 2 + 1 / r_left ^ 2 ≠ 0 := by positivity
  constructor
  · simp only [junctionMat]
    field_simp
    ring
  · simp only [junctionMat]
    field_simp
    ring

theorem C7_scattering_conservation_witness :
    (0 : ℚ) < 1 ∧ (0 : ℚ) < 2
    ∧ ((junctionMat 1 2).m01 + (junctionMat 1 2).m10 = 0
        ∧ (junctionMat 1 2).m00 * 2 ^ 2 = (junctionMat 1 2).m11 * 1 ^ 2) := by
  exact ⟨by norm_num, by norm_num,
    C7_scattering_conservation 1 2 (by norm_num) (by norm_num)⟩

/-- C8 (amended): `read_delay` performs no bounds check; the index is taken
modulo the capacity, so an offset at or beyond the capacity silently wraps
onto recent history: `read_delay (k + n_samp) = read_delay k` for every
offset `k`, in any state. -/
theorem C8_read_wraps_modulo_capacity (d : DelayLine) (k : ℤ) :
    d.read_delay (k + (d.n_samp : ℤ)) = d.read_delay k := by
  unfold DelayLine.read_delay
  congr 2
  have h : (d.ptr : ℤ) - (k + (d.n_samp : ℤ))
      = ((d.ptr : ℤ) - k) - (d.n_samp : ℤ) := by ring
  rw [h, Int.sub_emod, Int.emod_self, sub_zero, Int.emod_emod_of_dvd _ dvd_rfl]

/-- C8 counterexample: on a line of capacity 2 holding samples `5, 7`,
reading at the out-of-range offset 2 does not fail: it silently wraps and
returns the stored sample 7, exactly the sample at offset 0. -/
theorem C8_out_of_range_read_counterexample :
    ((DelayLine.init 1 1).run [5, 7]).read_delay 2 = 7
    ∧ ((DelayLine.init 1 1).run [5, 7]).read_delay 2
        = ((DelayLine.init 1 1).run [5, 7]).read_delay 0
    ∧ ((DelayLine.init 1 1).run [5, 7]).n_samp = 2 := by
  refine ⟨by decide, by decide, by decide⟩

/-- C9 (amended): `append_tube` performs no validation and no clamping: for
every delay, radius and loss rate (valid or not) it appends exactly one
segment, stores the radius unchanged, and the stored segment keeps the given
delay and loss rate unchanged. -/
theorem C9_append_never_validates (ta : TubeAssembly) (d : ℕ) (r l : ℚ) :
    (ta.append_tube d r l).tubes.length = ta.tubes.length + 1
    ∧ (ta.append_tube d r l).radii = ta.radii ++ [r]
    ∧ (ta.append_tube d r l).tubes.getLast? = some (Tube.init d l)
    ∧ (Tube.init d l).delay = d
    ∧ (Tube.init d l).smpl_prop_mult = 1 - l := by
  refine ⟨?_, ?_, ?_, rfl, rfl⟩
  · rw [TubeAssembly.append_tube_tubes]
    simp
  · exact TubeAssembly.append_tube_radii ta d r l
  · rw [TubeAssembly.append_tube_tubes]
    simp [List.getLast?_concat]

/-- C9 counterexample: a call with a non-positive delay (0), a non-positive
radius (-1) and a loss rate outside `[0,1)` (3/2) does not fail: it appends
a segment anyway. -/
theorem C9_invalid_append_counterexample :
    (TubeAssembly.init.append_tube 0 (-1) (3/2)).tubes.length = 1
    ∧ (TubeAssembly.init.append_tube 0 (-1) (3/2)).radii = [-1] := by
  refine ⟨by decide, by decide⟩

theorem insert_values_snd (ta : TubeAssembly) (v r : ℚ)
    (h : ta.scats.getD (ta.scats.length - 1) openEnd = openEnd) :
    (ta.insert_values v r).2 = r := by
  simp only [TubeAssembly.insert_values, TubeAssembly.scatter]
  rw [h]
  simp [openEnd]

theorem insert_values_scats (ta : TubeAssembly) (v r : ℚ) :
    ((ta.insert_values v r).1).scats = ta.scats := rfl

theorem run_returns_aux (vals : List ℚ) : ∀ (ta : TubeAssembly) (acc : List ℚ),
    ta.scats.getD (ta.scats.length - 1) openEnd = openEnd →
    (vals.foldl (fun (a : TubeAssembly × List ℚ) v =>
        let r := a.1.insert_values v 0
        (r.1, a.2 ++ [r.2])) (ta, acc)).2
      = acc ++ List.replicate vals.length 0 := by
  induction vals with
  | nil => intro ta acc _; simp
  | cons v vs ih =>
    intro ta acc h
    simp only [List.foldl_cons]
    have hstep := ih (ta.insert_values v 0).1
      (acc ++ [(ta.insert_values v 0).2])
      (by rw [insert_values_scats]; exact h)
    rw [hstep, insert_values_snd ta v 0 h]
    simp [List.replicate_succ]

theorem run_returns_zero (ta : TubeAssembly) (vals : List ℚ)
    (h : ta.scats.getD (ta.scats.length - 1) openEnd = openEnd) :
    ta.run_returns vals = List.replicate vals.length 0 := by
  have haux := run_returns_aux vals ta [] h
  simpa [TubeAssembly.run_returns] using haux

/-- C2 (amended): whenever the last junction slot holds the open-end
reflection matrix `[[0,1],[-1,0]]` (as it does in every assembly built by
`append_tube`, whatever the radii and losses), `insert_values` returns the
terminal return value unchanged: the junction transmits nothing outward, so
with `ret_val = 0` the radiated scalar is 0 on every tick and an injected
impulse never exits at the terminal end. -/
theorem C2_no_terminal_transmission (ta : TubeAssembly) (v r : ℚ)
    (h1 : ta.tubes ≠ [])
    (h2 : ta.scats.getD (ta.scats.length - 1) openEnd = openEnd) :
    (ta.insert_values v r).2 = r :=
  insert_values_snd ta v r h2

theorem C2_no_terminal_transmission_witness :
    ((singleTube 2).tubes ≠ []
      ∧ (singleTube 2).scats.getD ((singleTube 2).scats.length - 1) openEnd
          = openEnd)
    ∧ ((singleTube 2).insert_values 5 7).2 = 7 :=
  ⟨⟨by decide, by decide⟩,
    C2_no_terminal_transmission (singleTube 2) 5 7 (by decide) (by decide)⟩

/-- C2 counterexample: in a lossless matched-radii assembly (two segments of
delay 2, radius 1, loss 0; total delay 4) a unit impulse followed by zeros
never exits: the scalar returned by `insert_values` is 0 on each of the
first 10 ticks — in particular at the tick equal to the total delay it does
not have unit magnitude, contradicting the claim. -/
theorem C2_lossless_exit_counterexample :
    (buildAssembly [(2, 1, 0), (2, 1, 0)]).run_returns
        (1 :: List.replicate 9 0) = List.replicate 10 0
    ∧ (0 : ℚ) ≠ 1 ∧ (0 : ℚ) ≠ -1 := by
  refine ⟨?_, by norm_num, by norm_num⟩
  have h := run_returns_zero (buildAssembly [(2, 1, 0), (2, 1, 0)])
    (1 :: List.replicate 9 0) (by decide)
  simpa using h

theorem List.getD_concat_length {α : Type} (l : List α) (a d : α) :
    (l ++ [a]).getD l.length d = a := by
  simp [List.getD]

/-- What `append_tube` leaves in the junction list: for the first segment a
single open-end matrix; otherwise the open-end matrix is appended and the
slot before it is overwritten with the junction of the two last radii. -/
theorem TubeAssembly.append_tube_scats (ta : TubeAssembly) (d : ℕ) (r l : ℚ)
    (hlen : ta.scats.length = ta.tubes.length)
    (hrad : ta.radii.length = ta.tubes.length) :
    (ta.append_tube d r l).scats
      = if ta.tubes.length = 0 then [openEnd]
        else (ta.scats ++ [openEnd]).set (ta.tubes.length - 1)
          (junctionMat (ta.radii.getD (ta.tubes.length - 1) 0) r) := by
  simp only [TubeAssembly.append_tube, TubeAssembly.connect_tubes]
  have hc1 : ((-1 : ℤ) < 0) = True := by simp
  by_cases hn : ta.tubes.length = 0
  · have hnil : ta.tubes = [] := List.length_eq_zero.mp hn
    have hsnil : ta.scats = [] := List.length_eq_zero.mp (by rw [hlen, hn])
    simp [hnil, hsnil, hn]
  · have hcond : (if (-1 : ℤ) < 0
        then ((ta.tubes ++ [Tube.init d l]).length : ℤ) + -1 else -1)
        = (ta.tubes.length : ℤ) := by
      rw [if_pos (by norm_num)]
      simp only [List.length_append, List.length_singleton]
      push_cast
      ring
    rw [hcond, if_neg (by exact_mod_cast hn)]
    have htoNat : ((ta.tubes.length : ℤ)).toNat = ta.tubes.length :=
      Int.toNat_natCast _
    rw [htoNat]
    have hr1 : (ta.radii ++ [r]).getD (ta.tubes.length - 1) 0
        = ta.radii.getD (ta.tubes.length - 1) 0 :=
      List.getD_append _ _ _ _ (by omega)
    have hr2 : (ta.radii ++ [r]).getD ta.tubes.length 0 = r := by
      rw [← hrad]
      exact List.getD_concat_length _ _ _
    rw [hr1, hr2]
    simp [hn]

/-- C3 (amended): after any sequence of `append_tube` calls the three lists
have equal length (the radii being exactly those passed in, unclamped); for
every internal index `i` (`i + 1 < n`) junction `i` is the scattering matrix
derived from the currently stored radii `i` and `i + 1`; and the junction in
the *last* slot is the fixed open-end reflection matrix `[[0,1],[-1,0]]` —
in particular slot 0 holds the open-end matrix exactly until a second
segment is appended, at which point `connect_tubes` supersedes it. -/
theorem C3_assembly_invariant (specs : List (ℕ × ℚ × ℚ)) :
    (buildAssembly specs).tubes.length = specs.length
    ∧ (buildAssembly specs).scats.length = specs.length
    ∧ (buildAssembly specs).radii = specs.map (fun p => p.2.1)
    ∧ (∀ i : ℕ, i + 1 < specs.length →
        (buildAssembly specs).scats.getD i openEnd
          = junctionMat ((buildAssembly specs).radii.getD i 0)
              ((buildAssembly specs).radii.getD (i + 1) 0))
    ∧ (0 < specs.length →
        (buildAssembly specs).scats.getD (specs.length - 1) openEnd
          = openEnd) := by
  induction specs using List.reverseRecOn with
  | nil => simp [buildAssembly, TubeAssembly.init]
  | append_singleton specs p ih =>
    obtain ⟨h1, h2, h3, h4, h5⟩ := ih
    have hb : buildAssembly (specs ++ [p])
        = (buildAssembly specs).append_tube p.1 p.2.1 p.2.2 := by
      simp [buildAssembly]
    have hrad : (buildAssembly specs).radii.length = specs.length := by
      rw [h3]; simp
    have hscats := TubeAssembly.append_tube_scats (buildAssembly specs)
      p.1 p.2.1 p.2.2 (by omega) (by omega)
    rw [h1] at hscats
    by_cases hn : specs.length = 0
    · have hnil : specs = [] := List.length_eq_zero.mp hn
      subst hnil
      rw [hb] at *
      rw [if_pos (by simp)] at hscats
      refine ⟨?_, ?_, ?_, ?_, ?_⟩
      · rw [TubeAssembly.append_tube_tubes]; simp [h1]
      · rw [hscats]; simp
      · rw [TubeAssembly.append_tube_radii, h3]; simp
      · intro i hi
        simp only [List.length_append, List.length_singleton,
          List.length_nil] at hi
        omega
      · intro _; rw [hscats]; simp
    · have hpos : 0 < specs.length := by omega
      rw [hb]
      rw [if_neg hn] at hscats
      have hradii : ((buildAssembly specs).append_tube p.1 p.2.1 p.2.2).radii
          = (buildAssembly specs).radii ++ [p.2.1] :=
        TubeAssembly.append_tube_radii _ _ _ _
      refine ⟨?_, ?_, ?_, ?_, ?_⟩
      · rw [TubeAssembly.append_tube_tubes]; simp [h1]
      · rw [hscats]; simp [List.length_set, h2]
      · rw [hradii, h3]; simp
      · intro i hi
        simp only [List.length_append, List.length_singleton] at hi
        have hi' : i < specs.length := by omega
        rw [hscats, hradii]
        by_cases hlast : i = specs.length - 1
        · subst hlast
          rw [List.getD_set_self _ _ _ _ (by simp; omega)]
          have e1 : (buildAssembly specs).radii.getD (specs.length - 1) 0
              = ((buildAssembly specs).radii ++ [p.2.1]).getD
                  (specs.length - 1) 0 :=
            (List.getD_append _ _ _ _ (by omega)).symm
          have e2 : ((buildAssembly specs).radii ++ [p.2.1]).getD
              (specs.length - 1 + 1) 0 = p.2.1 := by
            have : specs.length - 1 + 1 = (buildAssembly specs).radii.length := by
              omega
            rw [this]
            exact List.getD_concat_length _ _ _
          rw [← e1, e2]
        · have hi2 : i + 1 < specs.length := by omega
          rw [List.getD_set_ne _ _ _ _ _ (by omega)]
          rw [List.getD_append _ _ _ _ (by omega),
            List.getD_append _ _ _ _ (by omega),
            List.getD_append _ _ _ _ (by omega)]
          exact h4 i hi2
      · intro _
        rw [hscats]
        have hlen2 : (specs ++ [p]).length - 1 = specs.length := by simp
        rw [hlen2, List.getD_set_ne _ _ _ _ _ (by omega)]
        have : specs.length = (buildAssembly specs).scats.length := by omega
        rw [this]
        exact List.getD_concat_length _ _ _

theorem C3_assembly_invariant_witness :
    (0 + 1 < 2
      ∧ (buildAssembly [(1, 1, 0), (1, 2, 0)]).scats.getD 0 openEnd
          = junctionMat ((buildAssembly [(1, 1, 0), (1, 2, 0)]).radii.getD 0 0)
              ((buildAssembly [(1, 1, 0), (1, 2, 0)]).radii.getD 1 0))
    ∧ (0 < 2
      ∧ (buildAssembly [(1, 1, 0), (1, 2, 0)]).scats.getD 1 openEnd
          = openEnd) := by
  refine ⟨⟨by norm_num, ?_⟩, ⟨by norm_num, ?_⟩⟩
  · exact (C3_assembly_invariant [(1, 1, 0), (1, 2, 0)]).2.2.2.1 0 (by norm_num)
  · exact (C3_assembly_invariant [(1, 1, 0), (1, 2, 0)]).2.2.2.2 (by norm_num)

/-- C3 counterexample: in the two-segment assembly with radii 1 and 2,
junction 1 (the last slot) holds the open-end matrix, not the matrix derived
from radii 0 and 1 as the claim demands — the open-end matrix lives at the
*last* index, and internal junction `i` couples radii `i` and `i + 1`. -/
theorem C3_junction_indexing_counterexample :
    (buildAssembly [(1, 1, 0), (1, 2, 0)]).scats.getD 1 openEnd = openEnd
    ∧ (buildAssembly [(1, 1, 0), (1, 2, 0)]).radii = [1, 2]
    ∧ openEnd
        ≠ junctionMat ((buildAssembly [(1, 1, 0), (1, 2, 0)]).radii.getD 0 0)
            ((buildAssembly [(1, 1, 0), (1, 2, 0)]).radii.getD 1 0) := by
  refine ⟨by decide, by decide, ?_⟩
  have hr : (buildAssembly [(1, 1, 0), (1, 2, 0)]).radii = [1, 2] := by decide
  rw [hr]
  simp only [junctionMat, openEnd, List.getD_cons_zero, List.getD_cons_succ]
  intro hcontra
  have h00 := congrArg Mat2.m00 hcontra
  norm_num at h00

theorem DelayLine.dump_line_length (d : DelayLine) :
    d.dump_line.length = min d.delay d.line.length := by
  simp [DelayLine.dump_line, np_roll]

/-- C4 (code bug): for every segment with `delay ≥ 2`, in any state,
`get_sum_distribution` fails: it multiplies the length-`delay` dump of a
line by the length-`delay + 1` attenuation vector, which numpy rejects as a
broadcast mismatch (`ValueError`), so the claimed length-`delay + 1` vector
of `sumAtPosition` values is never produced. -/
theorem C4_sum_distribution_always_fails (t : Tube)
    (hlen : t.dlout.line.length = t.delay + 5)
    (hdel : t.dlout.delay = t.delay)
    (hd : 2 ≤ t.delay) :
    t.get_sum_distribution = none := by
  have hdump : t.dlout.dump_line.length = t.delay := by
    rw [DelayLine.dump_line_length, hdel, hlen]
    omega
  have hnone : np_mul t.dlout.dump_line
      ((List.range (t.delay + 1)).map (fun (i : ℕ) => t.smpl_prop_mult ^ i))
      = none := by
    unfold np_mul
    rw [hdump]
    simp only [List.length_map, List.length_range]
    rw [if_neg (by omega), if_neg (by omega), if_neg (by omega)]
  simp [Tube.get_sum_distribution, hnone]

theorem C4_sum_distribution_witness :
    ((Tube.init 3 0).dlout.line.length = (Tube.init 3 0).delay + 5
      ∧ (Tube.init 3 0).dlout.delay = (Tube.init 3 0).delay
      ∧ 2 ≤ (Tube.init 3 0).delay)
    ∧ (Tube.init 3 0).get_sum_distribution = none :=
  ⟨⟨by decide, by decide, by decide⟩,
    C4_sum_distribution_always_fails (Tube.init 3 0)
      (by decide) (by decide) (by decide)⟩

theorem cumTubes_zero (ts : List Tube) : cumTubes ts 0 = 0 := rfl

theorem cumTubes_cons (t : Tube) (rest : List Tube) (j : ℕ) :
    cumTubes (t :: rest) (j + 1) = (t.delay : ℤ) + cumTubes rest j := by
  simp [cumTubes, List.take_succ_cons]

theorem cumTubes_nonneg (ts : List Tube) (k : ℕ) : 0 ≤ cumTubes ts k := by
  unfold cumTubes
  apply List.sum_nonneg
  intro x hx
  obtain ⟨t, _, rfl⟩ := List.mem_map.mp hx
  positivity

theorem tubeAtPosAux_found : ∀ (ts : List Tube) (p i : ℤ) (k : ℕ),
    k < ts.length →
    i ≤ p + cumTubes ts (k + 1) →
    (∀ j : ℕ, j < k → p + cumTubes ts (j + 1) < i) →
    tubeAtPosAux ts p i = some (ts.getD k default, i - (p + cumTubes ts k)) := by
  intro ts
  induction ts with
  | nil =>
    intro p i k hk
    simp at hk
  | cons t rest ih =>
    intro p i k hk hub hlb
    by_cases hcase : p + (t.delay : ℤ) ≥ i
    · have hk0 : k = 0 := by
        by_contra hne
        have h0 := hlb 0 (by omega)
        rw [cumTubes_cons, cumTubes_zero] at h0
        omega
      subst hk0
      simp [tubeAtPosAux, hcase, cumTubes_zero]
    · have hk0 : k ≠ 0 := by
        intro h0
        subst h0
        rw [cumTubes_cons, cumTubes_zero] at hub
        omega
      obtain ⟨k', rfl⟩ : ∃ k', k = k' + 1 := ⟨k - 1, by omega⟩
      rw [cumTubes_cons] at hub
      have hlb' : ∀ j : ℕ, j < k' →
          (p + (t.delay : ℤ)) + cumTubes rest (j + 1) < i := by
        intro j hj
        have hj2 := hlb (j + 1) (by omega)
        rw [cumTubes_cons] at hj2
        linarith
      have hrec := ih (p + (t.delay : ℤ)) i k' (by simpa using hk)
        (by linarith) hlb'
      show (if p + (t.delay : ℤ) ≥ i then some (t, i - p)
        else tubeAtPosAux rest (p + (t.delay : ℤ)) i) = _
      rw [if_neg hcase, hrec, cumTubes_cons]
      simp only [List.getD_cons_succ]
      congr 1
      ring_nf

theorem tubeAtPosAux_none : ∀ (ts : List Tube) (p i : ℤ),
    p + cumTubes ts ts.length < i → tubeAtPosAux ts p i = none := by
  intro ts
  induction ts with
  | nil => intro p i _; rfl
  | cons t rest ih =>
    intro p i h
    have hlen : (t :: rest).length = rest.length + 1 := rfl
    rw [hlen, cumTubes_cons] at h
    have hnn := cumTubes_nonneg rest rest.length
    show (if p + (t.delay : ℤ) ≥ i then some (t, i - p)
      else tubeAtPosAux rest (p + (t.delay : ℤ)) i) = _
    rw [if_neg (by omega)]
    exact ih (p + (t.delay : ℤ)) i (by omega)

/-- C10: for `0 ≤ i`, `get_tube_at_pos i` returns the first segment whose
cumulative end reaches `i` — formally, for the least `k` whose cumulative
end is `≥ i` it returns segment `k` paired with `i` minus segment `k`'s
cumulative start (so a boundary index resolves to the earlier segment at
local position equal to that segment's full delay) — and for `i` beyond the
total delay it returns no segment, making `get_sum_at_pos` fail. -/
theorem C10_tube_at_pos_spec (ta : TubeAssembly) (i : ℤ) :
    (∀ k : ℕ, k < ta.tubes.length → 0 ≤ i →
      i ≤ ta.cumDelay (k + 1) →
      (∀ j : ℕ, j < k → ta.cumDelay (j + 1) < i) →
      ta.get_tube_at_pos i
        = some (ta.tubes.getD k default, i - ta.cumDelay k))
    ∧ (ta.totalDelay < i →
        ta.get_tube_at_pos i = none ∧ ta.get_sum_at_pos i = none) := by
  constructor
  · intro k hk _ hub hlb
    have hfound := tubeAtPosAux_found ta.tubes 0 i k hk
      (by simpa [TubeAssembly.cumDelay] using hub)
      (by intro j hj; simpa [TubeAssembly.cumDelay] using hlb j hj)
    simpa [TubeAssembly.get_tube_at_pos, TubeAssembly.cumDelay] using hfound
  · intro h
    have hnone := tubeAtPosAux_none ta.tubes 0 i
      (by simpa [TubeAssembly.totalDelay, TubeAssembly.cumDelay] using h)
    refine ⟨hnone, ?_⟩
    simp [TubeAssembly.get_sum_at_pos, TubeAssembly.get_tube_at_pos, hnone]

theorem C10_tube_at_pos_witness :
    ((0 : ℤ) ≤ 2
      ∧ (buildAssembly [(2, 1, 0), (3, 1, 0)]).get_tube_at_pos 2
          = some ((buildAssembly [(2, 1, 0), (3, 1, 0)]).tubes.getD 0 default,
              2)
      ∧ ((buildAssembly [(2, 1, 0), (3, 1, 0)]).tubes.getD 0 default).delay
          = 2)
    ∧ ((buildAssembly [(2, 1, 0), (3, 1, 0)]).totalDelay = 5
      ∧ (buildAssembly [(2, 1, 0), (3, 1, 0)]).get_tube_at_pos 6 = none
      ∧ (buildAssembly [(2, 1, 0), (3, 1, 0)]).get_sum_at_pos 6 = none) := by
  refine ⟨⟨by norm_num, ?_, by decide⟩, by decide, ?_, ?_⟩
  · have h := (C10_tube_at_pos_spec (buildAssembly [(2, 1, 0), (3, 1, 0)]) 2).1
      0 (by decide) (by norm_num) (by decide) (by intro j hj; omega)
    simpa [TubeAssembly.cumDelay, cumTubes] using h
  · exact ((C10_tube_at_pos_spec (buildAssembly [(2, 1, 0), (3, 1, 0)]) 6).2
      (by decide)).1
  · exact ((C10_tube_at_pos_spec (buildAssembly [(2, 1, 0), (3, 1, 0)]) 6).2
      (by decide)).2

theorem List.getD_replicate_zero (n i : ℕ) :
    (List.replicate n (0 : ℚ)).getD i 0 = 0 := by
  rcases lt_or_ge i n with h | h
  · simp [List.getD, List.getElem?_replicate, h]
  · simp [List.getD, List.getElem?_replicate, Nat.not_lt.mpr h]

theorem singleTube_eq (d : ℕ) :
    singleTube d = ⟨[Tube.init d 0], [openEnd], [1]⟩ := by
  norm_num [singleTube, TubeAssembly.append_tube, TubeAssembly.connect_tubes,
    TubeAssembly.init]

/-- One tick of `insert_values` on a single-tube assembly with the open-end
junction: the incoming line receives minus the outgoing exit read, the
outgoing line receives the new input value, and `ret_val` is returned. -/
theorem single_step (t : Tube) (rs : List ℚ) (v r : ℚ) :
    TubeAssembly.insert_values ⟨[t], [openEnd], rs⟩ v r
      = (⟨[{ t with dlin := t.dlin.insert_sample (-t.read_outgoing),
                    dlout := t.dlout.insert_sample v }], [openEnd], rs⟩, r) := by
  simp [TubeAssembly.insert_values, TubeAssembly.scatter, openEnd]

theorem inSeq_length (d : ℕ) (vs : List ℚ) :
    (inSeq d vs).length = vs.length := by
  simp [inSeq]

theorem inSeq_append (d : ℕ) (vs : List ℚ) (v : ℚ) :
    inSeq d (vs ++ [v]) = inSeq d vs
      ++ [-(((DelayLine.init d 5).run vs).read_delay
            ((((DelayLine.init d 5).run vs).delay : ℤ) - 2)
          * (1 - (0 : ℚ)) ^ d)] := by
  unfold inSeq
  rw [List.length_append, List.length_singleton, List.range_succ,
    List.map_append]
  congr 1
  · apply List.map_congr_left
    intro j hj
    rw [List.take_append_of_le_length (le_of_lt (List.mem_range.mp hj))]
  · rw [List.map_singleton, List.take_left]

/-- The state of a single-tube lossless assembly after feeding `vs`: the
outgoing line has absorbed `vs`, the incoming line has absorbed `inSeq`. -/
theorem single_run (d : ℕ) : ∀ vs : List ℚ,
    (singleTube d).run vs
      = ⟨[{ Tube.init d 0 with
            dlin := (DelayLine.init d 5).run (inSeq d vs),
            dlout := (DelayLine.init d 5).run vs }], [openEnd], [1]⟩ := by
  intro vs
  induction vs using List.reverseRecOn with
  | nil =>
    rw [singleTube_eq]
    simp [TubeAssembly.run, inSeq, DelayLine.run]
    rfl
  | append_singleton vs v ih =>
    have hrun : (singleTube d).run (vs ++ [v])
        = (((singleTube d).run vs).insert_values v 0).1 := by
      simp [TubeAssembly.run]
    rw [hrun, ih, single_step]
    simp only [inSeq_append]
    simp [DelayLine.run, Tube.read_outgoing, Tube.init]

/-- The incoming-line feed produced by a unit-scaled impulse `v` followed by
zeros: one spike of `-v` at position `d - 1`, zero everywhere else. -/
theorem inSeq_impulse (d m : ℕ) (v : ℚ) (hd : 2 ≤ d) (hm : 1 ≤ m) :
    ∀ j : ℕ, j < m →
    (inSeq d (v :: List.replicate (m - 1) 0)).getD j 0
      = if j = d - 1 then -v else 0 := by
  intro j hj
  have hvslen : (v :: List.replicate (m - 1) 0).length = m := by
    simp; omega
  rw [inSeq, List.getD_map_range _ _ _ (by rw [hvslen]; exact hj)]
  have hdel : (((DelayLine.init d 5).run
      ((v :: List.replicate (m - 1) 0).take j)).delay : ℤ) - 2
      = ((d - 2 : ℕ) : ℤ) := by
    have hwf := DelayLine.run_WF ((v :: List.replicate (m - 1) 0).take j)
      (DelayLine.init_WF d 5 (by omega))
    rw [hwf.2.2.1]
    push_cast [Nat.cast_sub (by omega : 2 ≤ d)]
    ring
  rw [hdel, DelayLine.read_run d 5 _ (d - 2) (by omega)]
  have htlen : ((v :: List.replicate (m - 1) 0).take j).length = j := by
    rw [List.length_take, hvslen]
    omega
  rw [htlen]
  by_cases hc : d - 2 < j
  · rw [if_pos hc]
    rw [List.getD_take _ _ _ (by omega)]
    by_cases hj0 : j - 1 - (d - 2) = 0
    · have hjd : j = d - 1 := by omega
      rw [hj0]
      simp [hjd]
    · obtain ⟨i, hi⟩ : ∃ i, j - 1 - (d - 2) = i + 1 := ⟨j - 1 - (d - 2) - 1, by omega⟩
      rw [hi, List.getD_cons_succ, List.getD_replicate_zero]
      rw [if_neg (by omega)]
      ring
  · rw [if_neg hc, if_neg (by omega)]
    ring

/-- C1 (amended restriction: `d ≥ 2`): for a single-segment assembly of
delay `d ≥ 2`, unit radius and zero loss, feeding an impulse `v` followed by
zeros, the value read by `get_incoming_pressure_at_start` after `m ≥ 1`
ticks is exactly `-v` when `m = 2d` and exactly 0 for every other `m`; the
reference scenario (d = 3, v = 0.9: ticks 1 to 5 read 0, tick 6 reads -0.9)
is the instance `d = 3`.  (For `d = 1` the `-2` exit-read correction wraps
through the 5-sample headroom and the claim fails: see the
counterexample.) -/
theorem C1_single_tube_round_trip (d m : ℕ) (v : ℚ) (hd : 2 ≤ d)
    (hm : 1 ≤ m) :
    ((singleTube d).run
        (v :: List.replicate (m - 1) 0)).get_incoming_pressure_at_start
      = if m = 2 * d then -v else 0 := by
  rw [single_run]
  have hvslen : (v :: List.replicate (m - 1) 0).length = m := by
    simp
    omega
  show ((DelayLine.init d 5).run
        (inSeq d (v :: List.replicate (m - 1) 0))).read_delay ((d : ℤ) - 0)
      * (1 - (0 : ℚ)) ^ ((d : ℤ) - 0)
    = if m = 2 * d then -v else 0
  rw [show ((d : ℤ) - 0) = ((d : ℕ) : ℤ) from sub_zero _,
    show (1 - (0 : ℚ)) = 1 from sub_zero _, one_zpow, mul_one]
  rw [DelayLine.read_run d 5 _ d (by omega), inSeq_length, hvslen]
  by_cases hdm : d < m
  · rw [if_pos hdm, inSeq_impulse d m v hd hm (m - 1 - d) (by omega)]
    by_cases h2 : m = 2 * d
    · rw [if_pos (by omega), if_pos h2]
    · rw [if_neg (by omega), if_neg h2]
  · rw [if_neg hdm, if_neg (by omega)]

theorem C1_single_tube_round_trip_witness :
    (2 ≤ 3 ∧ 1 ≤ 6)
    ∧ ((singleTube 3).run
        ((9/10 : ℚ) :: List.replicate 5 0)).get_incoming_pressure_at_start
        = -(9/10)
    ∧ ((singleTube 3).run
        ((9/10 : ℚ) :: List.replicate 4 0)).get_incoming_pressure_at_start
        = 0 := by
  refine ⟨⟨by norm_num, by norm_num⟩, ?_, ?_⟩
  · have h := C1_single_tube_round_trip 3 6 (9/10) (by norm_num) (by norm_num)
    norm_num at h
    exact h
  · have h := C1_single_tube_round_trip 3 5 (9/10) (by norm_num) (by norm_num)
    norm_num at h
    exact h

/-- C1 counterexample: for a single segment of delay `d = 1` with unit
radius and zero loss, an impulse of value 1 does *not* reappear at the input
after `2d = 2` ticks — the reading is 0 there and the (inverted) impulse
only arrives at tick 8, because the `-2` exit-read correction sends it
through the 5-sample extra headroom of the circular buffers. -/
theorem C1_delay_one_counterexample :
    ((singleTube 1).run
        ((1 : ℚ) :: List.replicate 1 0)).get_incoming_pressure_at_start = 0
    ∧ (0 : ℚ) ≠ -1
    ∧ ((singleTube 1).run
        ((1 : ℚ) :: List.replicate 7 0)).get_incoming_pressure_at_start
        = -1 := by
  refine ⟨?_, by norm_num, ?_⟩ <;>
    norm_num [singleTube, TubeAssembly.append_tube, TubeAssembly.connect_tubes,
      TubeAssembly.init, Tube.init, DelayLine.init, TubeAssembly.run,
      TubeAssembly.insert_values, TubeAssembly.scatter, openEnd,
      Tube.read_outgoing, Tube.read_incoming, DelayLine.read_delay,
      DelayLine.insert_sample, DelayLine.increase_ptr,
      TubeAssembly.get_incoming_pressure_at_start, Tube.read_incoming_at_pos,
      List.replicate, List.range, List.range.loop, List.getD, List.foldl]
